import Mathlib

/-!
Verification development for the `agent_smith` text pipeline core:
the sensitive-data sanitizer (`src/security/sanitizer.py`) and the
overlapping-window chunker (`src/dataprep/01_chunk_and_clean.py`).

Text is modelled as `List Char`.  The sanitizer's regular expressions are
embedded as a small backtracking regex engine (`Regex`, `reMatch`) faithful
to Python `re` semantics for the constructs the four patterns use
(character classes, greedy bounded repetition, ordered alternation, the
zero-width word boundary `\b`, and case-insensitive literals), and
`re.sub` is modelled by `pySub` (leftmost match, scan resumes after each
replacement).  `str.split()` is modelled by `pySplit` and `" ".join` by
`joinWords`.
-/

set_option maxRecDepth 100000

namespace AgentSmith

/-! ## Character classes (ASCII classes of the sanitizer's regexes) -/

/-- Python `\s` whitespace class: space, tab, newline, carriage return,
vertical tab, form feed. -/
def isPySpace (c : Char) : Bool :=
  c = ' ' || c = '\t' || c = '\n' || c = '\r' || c = '\x0b' || c = '\x0c'

/-- Regex `\d`: an ASCII decimal digit. -/
def isDigitC (c : Char) : Bool :=
  '0' ≤ c && c ≤ '9'

/-- Regex `\w` word character (ASCII): letters, digits, underscore.
Used by the zero-width assertion `\b`. -/
def isWordC (c : Char) : Bool :=
  isDigitC c || ('a' ≤ c && c ≤ 'z') || ('A' ≤ c && c ≤ 'Z') || c = '_'

/-- Class `[0-9A-Fa-f]` of the MAC_ADDR pattern. -/
def isHexC (c : Char) : Bool :=
  isDigitC c || ('a' ≤ c && c ≤ 'f') || ('A' ≤ c && c ≤ 'F')

/-- Class `[A-Za-z0-9._%+-]` (EMAIL local part). -/
def isLocalC (c : Char) : Bool :=
  isWordC c && !(c = '_') || c = '_' || c = '.' || c = '%' || c = '+' || c = '-'

/-- Class `[A-Za-z0-9.-]` (EMAIL domain part). -/
def isDomC (c : Char) : Bool :=
  isWordC c && !(c = '_') || c = '.' || c = '-'

/-- Class `[A-Z|a-z]` (EMAIL top-level label; note the literal `|` the
source regex includes inside the class). -/
def isTldC (c : Char) : Bool :=
  ('A' ≤ c && c ≤ 'Z') || ('a' ≤ c && c ≤ 'z') || c = '|'

/-- Class `[A-Za-z0-9_\-]` (SECRET_KEY token). -/
def isTokC (c : Char) : Bool :=
  isWordC c || c = '-'

/-- ASCII lowercasing, as used to model the `(?i)` flag. -/
def lowerAscii (c : Char) : Char :=
  if 'A' ≤ c ∧ c ≤ 'Z' then Char.ofNat (c.toNat + 32) else c

/-! ## Regex engine -/

/-- Matcher state: the character immediately before the current position
(`none` at the start of the subject) and the remaining input.  The
previous character is what the zero-width `\b` assertion inspects. -/
structure MState where
  prev : Option Char
  rest : List Char
  deriving Repr, DecidableEq

/-- Regular expressions, covering exactly the constructs of the four
sanitizer patterns: single character classes, greedy counted repetition
`{lo,hi}` / `{lo,}` of a class, concatenation, ordered alternation, and
the word boundary `\b`. -/
inductive Regex where
  | cls (p : Char → Bool)
  | rep (p : Char → Bool) (lo : Nat) (hi : Option Nat)
  | seq (r1 r2 : Regex)
  | alt (r1 r2 : Regex)
  | wordB

def isWordOpt : Option Char → Bool
  | none => false
  | some c => isWordC c

/-- The `\b` test: the word-ness of the previous character differs from
the word-ness of the next character. -/
def atBoundary (st : MState) : Bool :=
  isWordOpt st.prev != isWordOpt st.rest.head?

/-- Advance a state by `k` characters. -/
def consume (st : MState) (k : Nat) : MState :=
  ⟨match (st.rest.take k).getLast? with
    | none => st.prev
    | some c => some c,
   st.rest.drop k⟩

/-- Length of the maximal prefix satisfying `p`. -/
def runLen (p : Char → Bool) : List Char → Nat
  | [] => 0
  | c :: cs => if p c then runLen p cs + 1 else 0

/-- Longest extent a greedy repetition with bound `hi` can reach. -/
def repMax (p : Char → Bool) (hi : Option Nat) (rest : List Char) : Nat :=
  match hi with
  | none => runLen p rest
  | some h => min (runLen p rest) h

/-- Result states of a greedy repetition `p{lo,hi}`, in backtracking
priority order (longest first). -/
def repStates (p : Char → Bool) (lo : Nat) (hi : Option Nat) (st : MState) : List MState :=
  if repMax p hi st.rest < lo then []
  else (List.range (repMax p hi st.rest + 1 - lo)).map
    (fun j => consume st (repMax p hi st.rest - j))

/-- All match results of a regex from a state, in Python backtracking
priority order (the head of the list is the match `re` reports). -/
def reMatch : Regex → MState → List MState
  | .cls p, st =>
    match st.rest with
    | [] => []
    | c :: cs => if p c then [⟨some c, cs⟩] else []
  | .rep p lo hi, st => repStates p lo hi st
  | .seq r1 r2, st => (reMatch r1 st).flatMap (fun st1 => reMatch r2 st1)
  | .alt r1 r2, st => reMatch r1 st ++ reMatch r2 st
  | .wordB, st => if atBoundary st then [st] else []

/-- Does the regex match the whole string (Python `re.fullmatch`)? -/
def reFullMatch (r : Regex) (s : List Char) : Bool :=
  (reMatch r ⟨none, s⟩).any (fun st => st.rest.isEmpty)

/-- One scan of `re.sub`: at each position try the pattern; on a match,
emit the replacement and resume after the match, otherwise advance one
character.  `fuel` only bounds the recursion (every step consumes at
least one character, so `fuel = s.length` suffices). -/
def subAux (r : Regex) (repl : List Char) : Nat → Option Char → List Char → List Char
  | _, _, [] => []
  | 0, _, s => s
  | fuel + 1, prev, c :: cs =>
    match (reMatch r ⟨prev, c :: cs⟩).head? with
    | some st =>
      if st.rest.length < cs.length + 1 then
        repl ++ subAux r repl fuel st.prev st.rest
      else
        c :: subAux r repl fuel (some c) cs
    | none => c :: subAux r repl fuel (some c) cs

/-- Python `re.sub(pattern, repl, s)` for patterns that never match the
empty string (all four sanitizer patterns consume at least one char). -/
def pySub (r : Regex) (repl : List Char) (s : List Char) : List Char :=
  subAux r repl s.length none s

/-! ## The four registered patterns (from `DataSanitizer.__init__`) -/

/-- One octet-with-dot group `\d{1,3}\.` of the IPV4 pattern. -/
def octetDot : Regex :=
  .seq (.rep isDigitC 1 (some 3)) (.cls (fun c => c = '.'))

/-- Pattern `IPV4`: `\b(?:\d{1,3}\.){3}\d{1,3}\b`. -/
def ipv4Re : Regex :=
  .seq .wordB (.seq octetDot (.seq octetDot (.seq octetDot
    (.seq (.rep isDigitC 1 (some 3)) .wordB))))

/-- Pattern `EMAIL`: `\b[A-Za-z0-9._%+-]+@[A-Za-z0-9.-]+\.[A-Z|a-z]{2,}\b`. -/
def emailRe : Regex :=
  .seq .wordB (.seq (.rep isLocalC 1 none) (.seq (.cls (fun c => c = '@'))
    (.seq (.rep isDomC 1 none) (.seq (.cls (fun c => c = '.'))
      (.seq (.rep isTldC 2 none) .wordB)))))

/-- Empty regex (matches the empty string): repetition `{0,0}`. -/
def epsRe : Regex := .rep (fun _ => false) 0 (some 0)

/-- Case-insensitive literal word, one `cls` per character (the effect of
`(?i)` on a literal in the pattern). -/
def ciWord : List Char → Regex
  | [] => epsRe
  | c :: cs => .seq (.cls (fun x => lowerAscii x = c)) (ciWord cs)

/-- The optional `[_-]?` between keyword halves. -/
def optSepRe : Regex := .rep (fun c => c = '_' || c = '-') 0 (some 1)

/-- Keyword alternation
`(api[_-]?key|access[_-]?token|secret|password|auth)` of the SECRET_KEY
pattern, in source order. -/
def kwRe : Regex :=
  .alt (.seq (ciWord ['a', 'p', 'i']) (.seq optSepRe (ciWord ['k', 'e', 'y'])))
    (.alt (.seq (ciWord ['a', 'c', 'c', 'e', 's', 's'])
        (.seq optSepRe (ciWord ['t', 'o', 'k', 'e', 'n'])))
      (.alt (ciWord ['s', 'e', 'c', 'r', 'e', 't'])
        (.alt (ciWord ['p', 'a', 's', 's', 'w', 'o', 'r', 'd'])
          (ciWord ['a', 'u', 't', 'h']))))

/-- Pattern `SECRET_KEY`:
`(?i)\b(api[_-]?key|access[_-]?token|secret|password|auth)\s*[:=]\s*[A-Za-z0-9_\-]{16,}\b`. -/
def secretRe : Regex :=
  .seq .wordB (.seq kwRe (.seq (.rep isPySpace 0 none)
    (.seq (.cls (fun c => c = ':' || c = '=')) (.seq (.rep isPySpace 0 none)
      (.seq (.rep isTokC 16 none) .wordB)))))

/-- One `[0-9A-Fa-f]{2}[:-]` group of the MAC_ADDR pattern. -/
def hexPairSep : Regex :=
  .seq (.rep isHexC 2 (some 2)) (.cls (fun c => c = ':' || c = '-'))

/-- Pattern `MAC_ADDR`: `([0-9A-Fa-f]{2}[:-]){5}([0-9A-Fa-f]{2})`. -/
def macRe : Regex :=
  .seq hexPairSep (.seq hexPairSep (.seq hexPairSep (.seq hexPairSep
    (.seq hexPairSep (.rep isHexC 2 (some 2))))))

/-! ## The sanitizer (`DataSanitizer.clean_text`) -/

def ipv4Repl : List Char := "[REDACTED_IP]".data
def emailRepl : List Char := "[REDACTED_EMAIL]".data
def secretRepl : List Char := "[REDACTED_SECRET]".data
def macRepl : List Char := "[REDACTED_MAC]".data

/-- `DataSanitizer.clean_text`: empty input short-circuits to the empty
string; otherwise the four `re.sub` passes are applied in registration
order IPV4, EMAIL, SECRET_KEY, MAC_ADDR, each over the output of the
previous one. -/
def clean_text (text : List Char) : List Char :=
  if text.isEmpty then []
  else
    pySub macRe macRepl
      (pySub secretRe secretRepl
        (pySub emailRe emailRepl
          (pySub ipv4Re ipv4Repl text)))

/-- Substring (contiguous segment) test, used to state the no-leak
property: does `needle` occur verbatim inside `hay`? -/
def containsSeg (needle : List Char) : List Char → Bool
  | [] => needle.isEmpty
  | c :: cs => needle.isPrefixOf (c :: cs) || containsSeg needle cs

/-! ## The chunker (`create_chunks` in `01_chunk_and_clean.py`) -/

/-- One step of Python `str.split()` scanning from the right: extend the
word in progress on a non-space character, flush it (when nonempty) on a
whitespace character. -/
def splitStep (c : Char) (st : List Char × List (List Char)) :
    List Char × List (List Char) :=
  if isPySpace c then ([], if st.1 = [] then st.2 else st.1 :: st.2)
  else (c :: st.1, st.2)

/-- Scan of `str.split()`: the word in progress at the front, followed by
the completed words to its right. -/
def splitCore (t : List Char) : List Char × List (List Char) :=
  t.foldr splitStep ([], [])

/-- Python `str.split()` (no argument): split on runs of whitespace,
discarding empty pieces. -/
def pySplit (t : List Char) : List (List Char) :=
  if (splitCore t).1 = [] then (splitCore t).2
  else (splitCore t).1 :: (splitCore t).2

/-- Python `" ".join(words)`: words joined by single spaces. -/
def joinWords (ws : List (List Char)) : List Char :=
  (List.intersperse [' '] ws).flatten

/-- Offsets produced by Python `range(i, n, stride)` for `stride ≥ 1`,
driven by a fuel argument (`fuel = n` suffices since the offset grows by
at least one per step). -/
def pyRangeFrom (n stride : Nat) : Nat → Nat → List Nat
  | 0, _ => []
  | fuel + 1, i => if i < n then i :: pyRangeFrom n stride fuel (i + stride) else []

/-- Python `range(0, n, stride)` for `stride ≥ 1`. -/
def pyRange (n stride : Nat) : List Nat :=
  pyRangeFrom n stride n 0

/-- The token windows `words[i : i + chunk_size]` taken at each loop
offset of `create_chunks`. -/
def windowsOf (words : List (List Char)) (chunk_size stride : Nat) :
    List (List (List Char)) :=
  (pyRange words.length stride).map (fun i => (words.drop i).take chunk_size)

/-- Error raised by `range(0, n, chunk_size - overlap)` when the step is
zero (Python `ValueError: range() arg 3 must not be zero`). -/
inductive ChunkError where
  | stepZero
  deriving Repr, DecidableEq

deriving instance DecidableEq for Except

/-- `create_chunks(text, chunk_size, overlap)`: split on whitespace,
return `[]` on no words; iterate windows with Python `range` stride
`chunk_size - overlap` (zero step raises, negative step yields an empty
range); join each window with single spaces and keep it only if its
length exceeds 50 characters. -/
def create_chunks (text : List Char) (chunk_size overlap : Nat) :
    Except ChunkError (List (List Char)) :=
  let words := pySplit text
  if words.isEmpty then .ok []
  else if chunk_size < overlap then .ok []
  else if chunk_size = overlap then .error .stepZero
  else .ok (((windowsOf words chunk_size (chunk_size - overlap)).map joinWords).filter
    (fun ch => 50 < ch.length))

/-! ## Support lemmas about `pySplit` and `joinWords` -/

theorem splitCore_nil : splitCore [] = ([], []) := rfl

theorem splitCore_cons (c : Char) (t : List Char) :
    splitCore (c :: t) = splitStep c (splitCore t) := rfl

/-- Invariant of the scan: the word in progress and every completed word
are whitespace-free, and completed words are nonempty. -/
theorem splitCore_sound :
    ∀ t : List Char, (splitCore t).1.all (fun c => !isPySpace c) ∧
      ∀ w ∈ (splitCore t).2, w ≠ [] ∧ w.all (fun c => !isPySpace c) := by
  intro t
  induction t with
  | nil => exact ⟨by simp [splitCore_nil], by simp [splitCore_nil]⟩
  | cons c t ih =>
    obtain ⟨ih1, ih2⟩ := ih
    rw [splitCore_cons, splitStep]
    by_cases hc : isPySpace c
    · rw [if_pos hc]
      refine ⟨by simp, ?_⟩
      by_cases hcur : (splitCore t).1 = []
      · simpa [hcur] using ih2
      · rw [if_neg hcur]
        intro w hw
        rcases List.mem_cons.mp hw with h | h
        · subst h; exact ⟨hcur, ih1⟩
        · exact ih2 w h
    · rw [if_neg hc]
      refine ⟨?_, ih2⟩
      simp only [List.all_cons, Bool.and_eq_true]
      exact ⟨by simpa using hc, ih1⟩

/-- Every word produced by `pySplit` is nonempty and free of whitespace. -/
theorem pySplit_sound :
    ∀ t : List Char, ∀ w ∈ pySplit t, w ≠ [] ∧ w.all (fun c => !isPySpace c) := by
  intro t w hw
  obtain ⟨h1, h2⟩ := splitCore_sound t
  rw [pySplit] at hw
  by_cases hcur : (splitCore t).1 = []
  · rw [if_pos hcur] at hw
    exact h2 w hw
  · rw [if_neg hcur] at hw
    rcases List.mem_cons.mp hw with h | h
    · subst h; exact ⟨hcur, h1⟩
    · exact h2 w h

theorem joinWords_nil : joinWords [] = [] := rfl

theorem joinWords_single (w : List Char) : joinWords [w] = w := by
  simp [joinWords, List.intersperse]

theorem joinWords_cons (w v : List Char) (ws : List (List Char)) :
    joinWords (w :: v :: ws) = w ++ ' ' :: joinWords (v :: ws) := by
  simp [joinWords, List.intersperse]

/-- Scanning a whitespace-free word prefix just extends the word in
progress. -/
theorem splitCore_append_word (w t : List Char)
    (hw : w.all (fun c => !isPySpace c)) :
    splitCore (w ++ t) = (w ++ (splitCore t).1, (splitCore t).2) := by
  induction w with
  | nil => simp
  | cons c w' ih =>
    simp only [List.all_cons, Bool.and_eq_true] at hw
    rw [List.cons_append, splitCore_cons, ih hw.2, splitStep,
      if_neg (by simpa using hw.1)]
    simp

/-- Round trip: splitting a single-space join of nonempty whitespace-free
words recovers exactly those words. -/
theorem pySplit_joinWords :
    ∀ ws : List (List Char),
      (∀ w ∈ ws, w ≠ [] ∧ w.all (fun c => !isPySpace c)) →
      pySplit (joinWords ws) = ws := by
  intro ws
  induction ws with
  | nil => intro _; rfl
  | cons w ws ih =>
    intro h
    obtain ⟨hw, hwall⟩ := h w (List.mem_cons_self w ws)
    match ws with
    | [] =>
      rw [joinWords_single]
      have hc : splitCore w = (w, ([] : List (List Char))) := by
        have h0 := splitCore_append_word w [] hwall
        simpa [splitCore_nil] using h0
      rw [pySplit, hc]
      simp [hw]
    | v :: ws' =>
      rw [joinWords_cons]
      have hrest : splitCore (' ' :: joinWords (v :: ws'))
          = ([], pySplit (joinWords (v :: ws'))) := by
        rw [splitCore_cons, splitStep, if_pos (by simp [isPySpace]), pySplit]
      rw [pySplit, splitCore_append_word w _ hwall, hrest]
      simp only [List.append_nil]
      rw [if_neg hw, ih (fun u hu => h u (List.mem_cons_of_mem _ hu))]

/-- Characters of a joined chunk are spaces or characters of its words. -/
theorem mem_joinWords :
    ∀ ws : List (List Char), ∀ d ∈ joinWords ws, d = ' ' ∨ ∃ w ∈ ws, d ∈ w := by
  intro ws
  induction ws with
  | nil => intro d hd; simp [joinWords_nil] at hd
  | cons w ws ih =>
    match ws with
    | [] =>
      intro d hd
      rw [joinWords_single] at hd
      exact Or.inr ⟨w, by simp, hd⟩
    | v :: ws' =>
      intro d hd
      rw [joinWords_cons] at hd
      rcases List.mem_append.mp hd with h | h
      · exact Or.inr ⟨w, by simp, h⟩
      · rcases List.mem_cons.mp h with h | h
        · exact Or.inl h
        · rcases ih d h with h | ⟨u, hu, hdu⟩
          · exact Or.inl h
          · exact Or.inr ⟨u, List.mem_cons_of_mem w hu, hdu⟩

/-- Head of a joined chunk is the head of its first word. -/
theorem joinWords_head (w : List Char) (ws : List (List Char)) (hw : w ≠ []) :
    (joinWords (w :: ws)).head? = w.head? := by
  match ws with
  | [] => rw [joinWords_single]
  | v :: ws' =>
    rw [joinWords_cons]
    match w, hw with
    | c :: w', _ => simp

theorem mem_of_getLast?_eq {α : Type} {l : List α} {a : α}
    (h : l.getLast? = some a) : a ∈ l := by
  match l with
  | [] => simp at h
  | b :: l' =>
    rw [List.getLast?_eq_getLast_of_ne_nil (List.cons_ne_nil b l')] at h
    have hmem := List.getLast_mem (List.cons_ne_nil b l')
    exact Option.some_inj.mp h ▸ hmem

/-- Last element of a joined chunk is the last of its final word. -/
theorem joinWords_getLast :
    ∀ ws : List (List Char), ∀ w ∈ ws, (∀ u ∈ ws, u ≠ ([] : List Char)) →
      ws.getLast? = some w → (joinWords ws).getLast? = w.getLast? := by
  intro ws
  induction ws with
  | nil => intro w hw; simp at hw
  | cons u ws ih =>
    intro w _ hne hlast
    match ws with
    | [] =>
      rw [joinWords_single]
      simp only [List.getLast?_singleton, Option.some_inj] at hlast
      rw [hlast]
    | v :: ws' =>
      rw [joinWords_cons]
      have hlast' : (v :: ws').getLast? = some w := by
        rwa [List.getLast?_cons_cons] at hlast
      have hwmem : w ∈ v :: ws' := mem_of_getLast?_eq hlast'
      have hjoin_ne : joinWords (v :: ws') ≠ [] := by
        intro hcontra
        have hv := hne v (by simp)
        match v, hv with
        | c :: v', _ =>
          match ws' with
          | [] => rw [joinWords_single] at hcontra; simp at hcontra
          | z :: zs => rw [joinWords_cons] at hcontra; simp at hcontra
      rw [List.getLast?_append_cons]
      have hcons : ' ' :: joinWords (v :: ws') = [' '] ++ joinWords (v :: ws') := rfl
      rw [hcons, List.getLast?_append_of_ne_nil _ hjoin_ne]
      exact ih w hwmem (fun z hz => hne z (List.mem_cons_of_mem u hz)) hlast'

/-- Lower bound on the length of a joined chunk: each word contributes at
least one character and each gap one space. -/
theorem joinWords_length_lb :
    ∀ ws : List (List Char), (∀ w ∈ ws, w ≠ ([] : List Char)) →
      ws.length + (ws.length - 1) ≤ (joinWords ws).length := by
  intro ws
  induction ws with
  | nil => intro _; simp [joinWords_nil]
  | cons w ws ih =>
    intro h
    have hw : w ≠ [] := h w (by simp)
    have hw1 : 1 ≤ w.length := by
      match w, hw with
      | c :: w', _ => simp
    match ws with
    | [] =>
      rw [joinWords_single]; simpa using hw1
    | v :: ws' =>
      rw [joinWords_cons]
      have hih := ih (fun u hu => h u (List.mem_cons_of_mem w hu))
      simp only [List.length_append, List.length_cons] at *
      omega

/-! ## Support lemmas about `pyRange` and window coverage -/

/-- With at least one token and stride at least the token count, the loop
produces the single offset `0`. -/
theorem pyRange_single (n s : Nat) (h1 : 0 < n) (h2 : n ≤ s) :
    pyRange n s = [0] := by
  match n, h1 with
  | m + 1, _ =>
    show pyRangeFrom (m + 1) s (m + 1) 0 = [0]
    rw [pyRangeFrom, if_pos (Nat.succ_pos m)]
    congr 1
    match m with
    | 0 => rfl
    | k + 1 =>
      rw [pyRangeFrom, if_neg]
      omega

/-- Membership in the offsets of Python `range(0, n, s)` (via
`pyRangeFrom` with sufficient fuel): exactly the multiples of the stride
below `n`, shifted by the start. -/
theorem mem_pyRangeFrom (n s : Nat) (hs : 0 < s) :
    ∀ fuel i, n ≤ i + fuel →
      ∀ x, (x ∈ pyRangeFrom n s fuel i ↔ ∃ j, x = i + j * s ∧ x < n) := by
  intro fuel
  induction fuel with
  | zero =>
    intro i hb x
    rw [pyRangeFrom]
    simp only [List.not_mem_nil, false_iff]
    rintro ⟨j, hx, hlt⟩
    omega
  | succ fuel ih =>
    intro i hb x
    rw [pyRangeFrom]
    by_cases hi : i < n
    · rw [if_pos hi, List.mem_cons, ih (i + s) (by omega) x]
      constructor
      · rintro (h | ⟨j, hx, hlt⟩)
        · exact ⟨0, by omega, by omega⟩
        · refine ⟨j + 1, ?_, hlt⟩
          rw [Nat.succ_mul]
          omega
      · rintro ⟨j, hx, hlt⟩
        match j with
        | 0 => exact Or.inl (by omega)
        | j + 1 =>
          refine Or.inr ⟨j, ?_, hlt⟩
          rw [Nat.succ_mul] at hx
          omega
    · rw [if_neg hi]
      simp only [List.not_mem_nil, false_iff]
      rintro ⟨j, hx, hlt⟩
      omega

/-- Coverage: from offset `i`, the windows taken at offsets
`i, i+s, i+2s, ...` contain the tokens `words[i:]` in order as a sublist
of their concatenation (given positive stride `s ≤ chunk size`). -/
theorem cover_from (words : List (List Char)) (c s : Nat)
    (hs : 0 < s) (hsc : s ≤ c) :
    ∀ fuel i, words.length ≤ i + fuel →
      List.Sublist (words.drop i)
        (((pyRangeFrom words.length s fuel i).map
          (fun j => (words.drop j).take c)).flatten) := by
  intro fuel
  induction fuel with
  | zero =>
    intro i hb
    rw [List.drop_eq_nil_of_le (by omega)]
    exact List.nil_sublist _
  | succ fuel ih =>
    intro i hb
    rw [pyRangeFrom]
    by_cases hi : i < words.length
    · rw [if_pos hi]
      simp only [List.map_cons, List.flatten_cons]
      have hsplit : words.drop i
          = (words.drop i).take s ++ words.drop (i + s) := by
        conv_lhs => rw [← List.take_append_drop s (words.drop i)]
        rw [List.drop_drop]
      have h1 : List.Sublist ((words.drop i).take s) ((words.drop i).take c) := by
        have htt : (words.drop i).take s = ((words.drop i).take c).take s := by
          rw [List.take_take, Nat.min_eq_left hsc]
        rw [htt]
        exact List.take_sublist s _
      have h3 := List.Sublist.append h1 (ih (i + s) (by omega))
      have h0 : List.Sublist (words.drop i)
          ((words.drop i).take s ++ words.drop (i + s)) := by
        rw [← hsplit]
      exact h0.trans h3
    · rw [if_neg hi]
      rw [List.drop_eq_nil_of_le (by omega)]
      exact List.nil_sublist _

/-! ## Claims about the chunker -/

/-- Degenerate-stride behavior of `create_chunks` (helper): empty word
list short-circuits, equal parameters hit the zero-step error, larger
overlap hits the empty range. -/
theorem degenerate_stride_helper (text : List Char) (c : Nat) :
    (pySplit text = [] → create_chunks text c c = .ok []) ∧
    (pySplit text ≠ [] → create_chunks text c c = .error .stepZero) ∧
    (∀ o, c < o → create_chunks text c o = .ok []) := by
  refine ⟨?_, ?_, ?_⟩
  · intro h
    simp [create_chunks, h]
  · intro h
    have he : (pySplit text).isEmpty = false := by
      simpa [List.isEmpty_iff] using h
    simp [create_chunks, he]
  · intro o ho
    by_cases h : pySplit text = []
    · simp [create_chunks, h]
    · have he : (pySplit text).isEmpty = false := by
        simpa [List.isEmpty_iff] using h
      simp [create_chunks, he, ho]

/-- Claim C9: with `overlap = chunk_size`, `create_chunks` raises an
error for every input with at least one whitespace token and returns the
empty sequence for empty or whitespace-only input; with
`overlap > chunk_size` it silently returns the empty sequence for every
input. -/
theorem C9_degenerate_stride (text : List Char) (c : Nat) :
    (pySplit text = [] → create_chunks text c c = .ok []) ∧
    (pySplit text ≠ [] → create_chunks text c c = .error .stepZero) ∧
    (∀ o, c < o → create_chunks text c o = .ok []) :=
  degenerate_stride_helper text c

/-- Claim C9 witness at a concrete input. -/
theorem C9_witness :
    pySplit "hello world".data ≠ [] ∧
    create_chunks "hello world".data 2 2 = .error .stepZero ∧
    create_chunks "hello world".data 2 3 = .ok [] :=
  ⟨by decide,
   (C9_degenerate_stride "hello world".data 2).2.1 (by decide),
   (C9_degenerate_stride "hello world".data 2).2.2 3 (by decide)⟩

/-- Claim C3 counterexample: with `overlap > chunk_size` and a nonempty
input, `create_chunks` signals no error at all (it returns an empty chunk
list), and even with `overlap = chunk_size` an empty input signals no
error; so no configuration error is raised eagerly before processing. -/
theorem C3_counterexample :
    create_chunks "alpha beta gamma".data 5 10 = .ok [] ∧
    create_chunks "".data 5 5 = .ok [] := by
  constructor
  · decide
  · decide

/-- Claim C3 amended: the code performs no construction-time validation.
With `overlap > chunk_size`, `create_chunks` returns an empty list and no
error for every input; with `overlap = chunk_size` it raises an error only
at call time and only when the input has at least one token. -/
theorem C3_no_eager_validation (text : List Char) (c o : Nat) :
    (c < o → create_chunks text c o = .ok []) ∧
    (c = o → pySplit text = [] → create_chunks text c o = .ok []) ∧
    (c = o → pySplit text ≠ [] → create_chunks text c o = .error .stepZero) := by
  refine ⟨?_, ?_, ?_⟩
  · intro h
    exact (degenerate_stride_helper text c).2.2 o h
  · intro h he
    subst h
    exact (degenerate_stride_helper text c).1 he
  · intro h hne
    subst h
    exact (degenerate_stride_helper text c).2.1 hne

/-- Claim C3 amended witness at concrete inputs. -/
theorem C3_witness :
    create_chunks "alpha beta".data 4 9 = .ok [] ∧
    create_chunks "alpha beta".data 4 4 = .error .stepZero :=
  ⟨(C3_no_eager_validation "alpha beta".data 4 9).1 (by decide),
   (C3_no_eager_validation "alpha beta".data 4 4).2.2 rfl (by decide)⟩

/-- Claim C5 counterexample: an input of 2 tokens (fewer than
`window_size = 3`) with `overlap = 2` produces two chunks, neither equal
to the whole input (the windows restart every `stride = 1` tokens, and
joining normalizes the double space). -/
theorem C5_counterexample :
    (pySplit (List.replicate 60 'x' ++ ' ' :: ' ' :: List.replicate 60 'y')).length = 2 ∧
    create_chunks (List.replicate 60 'x' ++ ' ' :: ' ' :: List.replicate 60 'y') 3 2 =
      .ok [List.replicate 60 'x' ++ ' ' :: List.replicate 60 'y',
           List.replicate 60 'y'] ∧
    List.replicate 60 'x' ++ ' ' :: List.replicate 60 'y'
      ≠ List.replicate 60 'x' ++ ' ' :: ' ' :: List.replicate 60 'y' ∧
    List.replicate 60 'y'
      ≠ List.replicate 60 'x' ++ ' ' :: ' ' :: List.replicate 60 'y' := by
  refine ⟨by decide, by decide, by decide, by decide⟩

/-- Claim C5 amended: when the token count is at most the stride
`chunk_size - overlap` (with `overlap < chunk_size`), `create_chunks`
produces exactly one window, the single-space join of all tokens, emitted
exactly when its character length exceeds 50; with no tokens it produces
no chunks. -/
theorem C5_single_window (text : List Char) (c o : Nat) (h1 : o < c)
    (h2 : (pySplit text).length ≤ c - o) :
    create_chunks text c o =
      .ok (if 50 < (joinWords (pySplit text)).length
        then [joinWords (pySplit text)] else []) := by
  by_cases hw : pySplit text = []
  · rw [hw]
    simp [create_chunks, hw, joinWords_nil]
  · have he : (pySplit text).isEmpty = false := by
      simpa [List.isEmpty_iff] using hw
    have hn : 0 < (pySplit text).length := List.length_pos.mpr hw
    have hwin : windowsOf (pySplit text) c (c - o) = [pySplit text] := by
      rw [windowsOf, pyRange_single _ _ hn h2]
      simp only [List.map_cons, List.map_nil, List.drop_zero]
      rw [List.take_of_length_le (by omega)]
    simp only [create_chunks, he, Bool.false_eq_true, if_false,
      if_neg (show ¬ c < o by omega), if_neg (show ¬ c = o by omega), hwin]
    by_cases hlen : 50 < (joinWords (pySplit text)).length
    · rw [if_pos hlen]
      simp [List.filter, hlen]
    · rw [if_neg hlen]
      simp [List.filter, hlen]

/-- Claim C5 amended witness at a concrete two-token input. -/
theorem C5_witness :
    (5 : Nat) < 10 ∧
    (pySplit (List.replicate 60 'a' ++ ' ' :: List.replicate 60 'b')).length ≤ 10 - 5 ∧
    create_chunks (List.replicate 60 'a' ++ ' ' :: List.replicate 60 'b') 10 5 =
      .ok (if 50 < (joinWords (pySplit
            (List.replicate 60 'a' ++ ' ' :: List.replicate 60 'b'))).length
        then [joinWords (pySplit (List.replicate 60 'a' ++ ' ' :: List.replicate 60 'b'))]
        else []) :=
  ⟨by decide, by decide,
   C5_single_window (List.replicate 60 'a' ++ ' ' :: List.replicate 60 'b') 10 5
     (by decide) (by decide)⟩

/-- Claim C6 counterexample: a non-empty tokenizable input whose single
token appears in no emitted chunk: the only window is shorter than the
51-character threshold, so no chunk is emitted and the token is skipped
entirely. -/
theorem C6_counterexample :
    pySplit "hi".data = [['h', 'i']] ∧
    create_chunks "hi".data 5 0 = .ok [] := by
  refine ⟨by decide, by decide⟩

/-- Claim C6 amended: before the 50-character filter, the concatenation
of the token lists of all produced windows covers every token of the
input in original order (tokens may be skipped in the emitted chunks only
because short windows are filtered out). -/
theorem C6_window_coverage (text : List Char) (c o : Nat) (h : o < c) :
    List.Sublist (pySplit text)
      (((windowsOf (pySplit text) c (c - o)).map
        (fun w => pySplit (joinWords w))).flatten) := by
  have hmap : (windowsOf (pySplit text) c (c - o)).map
      (fun w => pySplit (joinWords w)) = windowsOf (pySplit text) c (c - o) := by
    have hcongr : ∀ w ∈ windowsOf (pySplit text) c (c - o),
        pySplit (joinWords w) = w := by
      intro w hw
      apply pySplit_joinWords
      intro u hu
      rw [windowsOf] at hw
      obtain ⟨i, _, rfl⟩ := List.mem_map.mp hw
      have hsub : List.Sublist (((pySplit text).drop i).take c) (pySplit text) :=
        (List.take_sublist _ _).trans (List.drop_sublist _ _)
      exact pySplit_sound text u (hsub.subset hu)
    rw [List.map_congr_left hcongr]
    simp
  rw [hmap]
  have hcov := cover_from (pySplit text) c (c - o) (by omega) (by omega)
    (pySplit text).length 0 (by omega)
  simpa [windowsOf, pyRange] using hcov

/-- Claim C6 amended witness at a concrete input. -/
theorem C6_witness :
    (1 : Nat) < 2 ∧
    List.Sublist (pySplit "x y z".data)
      (((windowsOf (pySplit "x y z".data) 2 (2 - 1)).map
        (fun w => pySplit (joinWords w))).flatten) :=
  ⟨by decide, C6_window_coverage "x y z".data 2 1 (by decide)⟩

/-- Claim C7: window offsets are exactly `0, stride, 2*stride, ...`
below the token count, and a 1000-word input with `window_size = 500`,
`overlap = 50` yields exactly 3 chunks, the second starting at word
index 450 and the third at word index 900 holding the final 100 words. -/
theorem C7_windowing :
    (∀ n s, 0 < s → ∀ x, (x ∈ pyRange n s ↔ ∃ j, x = j * s ∧ x < n)) ∧
    (∀ text : List Char, (pySplit text).length = 1000 →
      create_chunks text 500 50 =
        .ok [joinWords ((pySplit text).take 500),
             joinWords (((pySplit text).drop 450).take 500),
             joinWords ((pySplit text).drop 900)] ∧
      ((pySplit text).drop 900).length = 100) := by
  constructor
  · intro n s hs x
    have h := mem_pyRangeFrom n s hs n 0 (by omega) x
    simpa [pyRange] using h
  · intro text hlen
    have hw : pySplit text ≠ [] := by
      intro hcontra
      rw [hcontra] at hlen
      simp at hlen
    have he : (pySplit text).isEmpty = false := by
      simpa [List.isEmpty_iff] using hw
    have hnonempty : ∀ w ∈ pySplit text, w ≠ [] :=
      fun w hw' => (pySplit_sound text w hw').1
    have hdl : ((pySplit text).drop 900).length = 100 := by
      rw [List.length_drop, hlen]
    have hwin : windowsOf (pySplit text) 500 450 =
        [(pySplit text).take 500, ((pySplit text).drop 450).take 500,
         (pySplit text).drop 900] := by
      rw [windowsOf, hlen]
      have hpr : pyRange 1000 450 = [0, 450, 900] := by decide
      rw [hpr]
      simp only [List.map_cons, List.map_nil, List.drop_zero]
      rw [List.take_of_length_le
        (show ((pySplit text).drop 900).length ≤ 500 by rw [hdl]; omega)]
    have hl1 : ((pySplit text).take 500).length = 500 := by
      rw [List.length_take, hlen]
      exact Nat.min_eq_left (by omega)
    have hl2 : (((pySplit text).drop 450).take 500).length = 500 := by
      rw [List.length_take, List.length_drop, hlen]
      exact Nat.min_eq_left (by omega)
    have hub1 : 50 < (joinWords ((pySplit text).take 500)).length := by
      have hlb := joinWords_length_lb ((pySplit text).take 500)
        (fun w hw' => hnonempty w ((List.take_sublist _ _).subset hw'))
      rw [hl1] at hlb
      omega
    have hub2 : 50 < (joinWords (((pySplit text).drop 450).take 500)).length := by
      have hlb := joinWords_length_lb (((pySplit text).drop 450).take 500)
        (fun w hw' => hnonempty w
          (((List.take_sublist _ _).trans (List.drop_sublist _ _)).subset hw'))
      rw [hl2] at hlb
      omega
    have hub3 : 50 < (joinWords ((pySplit text).drop 900)).length := by
      have hlb := joinWords_length_lb ((pySplit text).drop 900)
        (fun w hw' => hnonempty w ((List.drop_sublist _ _).subset hw'))
      rw [hdl] at hlb
      omega
    refine ⟨?_, hdl⟩
    simp only [create_chunks, he, Bool.false_eq_true, if_false,
      if_neg (show ¬ (500 : Nat) < 50 by omega),
      if_neg (show ¬ (500 : Nat) = 50 by omega), hwin]
    simp [List.filter_cons, hub1, hub2, hub3]

/-- Claim C7 witness: the offset characterization at a concrete point and
the 1000-word scenario at a concrete 1000-word text. -/
theorem C7_witness :
    ((0 : Nat) < 450 ∧
      ((900 : Nat) ∈ pyRange 1000 450 ↔ ∃ j, (900 : Nat) = j * 450 ∧ 900 < 1000)) ∧
    ((pySplit (joinWords (List.replicate 1000 ['a']))).length = 1000 ∧
      (create_chunks (joinWords (List.replicate 1000 ['a'])) 500 50 =
        .ok [joinWords ((pySplit (joinWords (List.replicate 1000 ['a']))).take 500),
             joinWords (((pySplit (joinWords (List.replicate 1000 ['a']))).drop 450).take 500),
             joinWords ((pySplit (joinWords (List.replicate 1000 ['a']))).drop 900)] ∧
        ((pySplit (joinWords (List.replicate 1000 ['a']))).drop 900).length = 100)) :=
  ⟨⟨by decide, C7_windowing.1 1000 450 (by decide) 900⟩,
   ⟨by decide, C7_windowing.2 (joinWords (List.replicate 1000 ['a'])) (by decide)⟩⟩

/-- Claim C10: every chunk returned by `create_chunks` under valid
parameters is the single-space join of a contiguous token slice, holds at
most `chunk_size` tokens, is longer than 50 characters, and contains no
whitespace other than single interior spaces — in particular no leading or
trailing whitespace and no newline or tab. -/
theorem C10_chunk_shape (text : List Char) (c o : Nat)
    (chunks : List (List Char)) (ch : List Char)
    (h1 : o < c) (h2 : create_chunks text c o = .ok chunks) (h3 : ch ∈ chunks) :
    ∃ i, ch = joinWords (((pySplit text).drop i).take c) ∧
      pySplit ch = ((pySplit text).drop i).take c ∧
      (pySplit ch).length ≤ c ∧
      50 < ch.length ∧
      (∀ d ∈ ch, d = ' ' ∨ isPySpace d = false) ∧
      (∃ hd, ch.head? = some hd ∧ isPySpace hd = false) ∧
      (∃ lst, ch.getLast? = some lst ∧ isPySpace lst = false) := by
  by_cases hw : pySplit text = []
  · simp only [create_chunks, hw, List.isEmpty_nil, if_true, Except.ok.injEq] at h2
    rw [← h2] at h3
    simp at h3
  · have he : (pySplit text).isEmpty = false := by
      simpa [List.isEmpty_iff] using hw
    simp only [create_chunks, he, Bool.false_eq_true, if_false,
      if_neg (show ¬ c < o by omega), if_neg (show ¬ c = o by omega),
      Except.ok.injEq] at h2
    rw [← h2] at h3
    obtain ⟨hmem, hp⟩ := List.mem_filter.mp h3
    obtain ⟨w, hw_mem, hjw⟩ := List.mem_map.mp hmem
    rw [windowsOf] at hw_mem
    obtain ⟨i, _, hwin⟩ := List.mem_map.mp hw_mem
    subst hjw
    subst hwin
    have hall : ∀ u ∈ ((pySplit text).drop i).take c,
        u ≠ [] ∧ u.all (fun d => !isPySpace d) := by
      intro u hu
      have hsub : List.Sublist (((pySplit text).drop i).take c) (pySplit text) :=
        (List.take_sublist _ _).trans (List.drop_sublist _ _)
      exact pySplit_sound text u (hsub.subset hu)
    have hsplit_ch : pySplit (joinWords (((pySplit text).drop i).take c))
        = ((pySplit text).drop i).take c := pySplit_joinWords _ hall
    have hlen : 50 < (joinWords (((pySplit text).drop i).take c)).length := by
      simpa using hp
    have hwne : ((pySplit text).drop i).take c ≠ [] := by
      intro hcontra
      rw [hcontra, joinWords_nil] at hlen
      simp at hlen
    refine ⟨i, rfl, hsplit_ch, ?_, hlen, ?_, ?_, ?_⟩
    · rw [hsplit_ch, List.length_take]
      exact Nat.min_le_left c _
    · intro d hd
      rcases mem_joinWords _ d hd with h | ⟨u, hu, hdu⟩
      · exact Or.inl h
      · refine Or.inr ?_
        simpa using List.all_eq_true.mp (hall u hu).2 d hdu
    · match hwm : ((pySplit text).drop i).take c, hwne with
      | u :: win', _ =>
        have hu := hall u (by rw [hwm]; exact List.mem_cons_self u win')
        rw [joinWords_head u win' hu.1]
        match u, hu.1 with
        | e :: u', _ =>
          refine ⟨e, rfl, ?_⟩
          simpa using List.all_eq_true.mp hu.2 e (List.mem_cons_self e u')
    · have hlast : (((pySplit text).drop i).take c).getLast? =
          some ((((pySplit text).drop i).take c).getLast hwne) :=
        List.getLast?_eq_getLast_of_ne_nil hwne
      have hmem' := List.getLast_mem hwne
      have hglast := joinWords_getLast (((pySplit text).drop i).take c)
        ((((pySplit text).drop i).take c).getLast hwne) hmem'
        (fun z hz => (hall z hz).1) hlast
      rw [hglast]
      have hu' := hall _ hmem'
      match hum : (((pySplit text).drop i).take c).getLast hwne, hu'.1 with
      | e :: u'', _ =>
        rw [List.getLast?_eq_getLast_of_ne_nil (List.cons_ne_nil e u'')]
        refine ⟨(e :: u'').getLast (List.cons_ne_nil e u''), rfl, ?_⟩
        have hm := List.getLast_mem (List.cons_ne_nil e u'')
        have hall2 := hu'.2
        rw [hum] at hall2
        simpa using List.all_eq_true.mp hall2 _ hm

/-- Claim C10 witness at a concrete input with one emitted chunk. -/
theorem C10_witness :
    (0 : Nat) < 5 ∧
    create_chunks (List.replicate 60 'a' ++ ' ' :: List.replicate 60 'b') 5 0 =
      .ok [List.replicate 60 'a' ++ ' ' :: List.replicate 60 'b'] ∧
    (List.replicate 60 'a' ++ ' ' :: List.replicate 60 'b')
      ∈ [List.replicate 60 'a' ++ ' ' :: List.replicate 60 'b'] ∧
    (∃ i, List.replicate 60 'a' ++ ' ' :: List.replicate 60 'b'
        = joinWords (((pySplit (List.replicate 60 'a' ++ ' ' :: List.replicate 60 'b')).drop i).take 5) ∧
      pySplit (List.replicate 60 'a' ++ ' ' :: List.replicate 60 'b')
        = ((pySplit (List.replicate 60 'a' ++ ' ' :: List.replicate 60 'b')).drop i).take 5 ∧
      (pySplit (List.replicate 60 'a' ++ ' ' :: List.replicate 60 'b')).length ≤ 5 ∧
      50 < (List.replicate 60 'a' ++ ' ' :: List.replicate 60 'b').length ∧
      (∀ d ∈ List.replicate 60 'a' ++ ' ' :: List.replicate 60 'b',
        d = ' ' ∨ isPySpace d = false) ∧
      (∃ hd, (List.replicate 60 'a' ++ ' ' :: List.replicate 60 'b').head? = some hd ∧
        isPySpace hd = false) ∧
      (∃ lst, (List.replicate 60 'a' ++ ' ' :: List.replicate 60 'b').getLast? = some lst ∧
        isPySpace lst = false)) :=
  ⟨by decide, by decide, by decide,
   C10_chunk_shape (List.replicate 60 'a' ++ ' ' :: List.replicate 60 'b') 5 0
     [List.replicate 60 'a' ++ ' ' :: List.replicate 60 'b']
     (List.replicate 60 'a' ++ ' ' :: List.replicate 60 'b')
     (by decide) (by decide) (by decide)⟩

/-! ## Whitespace-only inputs pass through the sanitizer unchanged -/

theorem space_cases {c : Char} (h : isPySpace c = true) :
    c = ' ' ∨ c = '\t' ∨ c = '\n' ∨ c = '\r' ∨ c = '\x0b' ∨ c = '\x0c' := by
  have h2 := h
  simp only [isPySpace, Bool.or_eq_true, decide_eq_true_eq] at h2
  tauto

theorem space_not_digit {c : Char} (h : isPySpace c = true) : isDigitC c = false := by
  rcases space_cases h with h | h | h | h | h | h <;> subst h <;> decide

theorem space_not_local {c : Char} (h : isPySpace c = true) : isLocalC c = false := by
  rcases space_cases h with h | h | h | h | h | h <;> subst h <;> decide

theorem space_not_hex {c : Char} (h : isPySpace c = true) : isHexC c = false := by
  rcases space_cases h with h | h | h | h | h | h <;> subst h <;> decide

theorem space_not_a {c : Char} (h : isPySpace c = true) : ¬ lowerAscii c = 'a' := by
  rcases space_cases h with h | h | h | h | h | h <;> subst h <;> decide

theorem space_not_s {c : Char} (h : isPySpace c = true) : ¬ lowerAscii c = 's' := by
  rcases space_cases h with h | h | h | h | h | h <;> subst h <;> decide

theorem space_not_p {c : Char} (h : isPySpace c = true) : ¬ lowerAscii c = 'p' := by
  rcases space_cases h with h | h | h | h | h | h <;> subst h <;> decide

theorem reMatch_ipv4_space (prev : Option Char) (s : List Char)
    (hs : ∀ c, s.head? = some c → isPySpace c = true) :
    reMatch ipv4Re ⟨prev, s⟩ = [] := by
  match s with
  | [] =>
    by_cases hb : atBoundary ⟨prev, []⟩ <;>
      simp [ipv4Re, octetDot, reMatch, repStates, repMax, runLen, hb]
  | c :: cs =>
    have hd := space_not_digit (hs c rfl)
    by_cases hb : atBoundary ⟨prev, c :: cs⟩ <;>
      simp [ipv4Re, octetDot, reMatch, repStates, repMax, runLen, hb, hd]

theorem reMatch_email_space (prev : Option Char) (s : List Char)
    (hs : ∀ c, s.head? = some c → isPySpace c = true) :
    reMatch emailRe ⟨prev, s⟩ = [] := by
  match s with
  | [] =>
    by_cases hb : atBoundary ⟨prev, []⟩ <;>
      simp [emailRe, reMatch, repStates, repMax, runLen, hb]
  | c :: cs =>
    have hl := space_not_local (hs c rfl)
    by_cases hb : atBoundary ⟨prev, c :: cs⟩ <;>
      simp [emailRe, reMatch, repStates, repMax, runLen, hb, hl]

theorem reMatch_secret_space (prev : Option Char) (s : List Char)
    (hs : ∀ c, s.head? = some c → isPySpace c = true) :
    reMatch secretRe ⟨prev, s⟩ = [] := by
  match s with
  | [] =>
    by_cases hb : atBoundary ⟨prev, []⟩ <;>
      simp [secretRe, kwRe, ciWord, reMatch, hb]
  | c :: cs =>
    have ha := space_not_a (hs c rfl)
    have hsc := space_not_s (hs c rfl)
    have hp := space_not_p (hs c rfl)
    by_cases hb : atBoundary ⟨prev, c :: cs⟩ <;>
      simp [secretRe, kwRe, ciWord, reMatch, hb, ha, hsc, hp]

theorem reMatch_mac_space (prev : Option Char) (s : List Char)
    (hs : ∀ c, s.head? = some c → isPySpace c = true) :
    reMatch macRe ⟨prev, s⟩ = [] := by
  match s with
  | [] =>
    simp [macRe, hexPairSep, reMatch, repStates, repMax, runLen]
  | c :: cs =>
    have hh := space_not_hex (hs c rfl)
    simp [macRe, hexPairSep, reMatch, repStates, repMax, runLen, hh]

/-- A pattern that never matches at a whitespace head leaves an
all-whitespace string unchanged under `re.sub` scanning. -/
theorem subAux_id_of_space (r : Regex) (repl : List Char)
    (hr : ∀ prev c cs, isPySpace c = true → reMatch r ⟨prev, c :: cs⟩ = []) :
    ∀ fuel prev s, s.all isPySpace → subAux r repl fuel prev s = s := by
  intro fuel
  induction fuel with
  | zero =>
    intro prev s _
    match s with
    | [] => rfl
    | c :: cs => rfl
  | succ fuel ih =>
    intro prev s hs
    match s with
    | [] => rfl
    | c :: cs =>
      simp only [List.all_cons, Bool.and_eq_true] at hs
      rw [subAux, hr prev c cs hs.1]
      simp only [List.head?_nil]
      rw [ih (some c) cs hs.2]

theorem pySub_id_of_space (r : Regex) (repl : List Char)
    (hr : ∀ prev c cs, isPySpace c = true → reMatch r ⟨prev, c :: cs⟩ = [])
    (s : List Char) (hs : s.all isPySpace) : pySub r repl s = s :=
  subAux_id_of_space r repl hr s.length none s hs

/-- Helper for claims C4: `clean_text` maps the empty string to the empty
string and leaves every whitespace-only string unchanged. -/
theorem clean_text_space_helper (s : List Char) (hs : s.all isPySpace) :
    clean_text s = s := by
  by_cases he : s.isEmpty
  · rw [clean_text, if_pos he]
    match s, he with
    | [], _ => rfl
  · rw [clean_text, if_neg he]
    rw [pySub_id_of_space _ _ (fun p c cs hc => reMatch_ipv4_space p (c :: cs)
      (fun d hd => by simpa [List.head?_cons, ← Option.some_inj.mp hd] using hc)) s hs]
    rw [pySub_id_of_space _ _ (fun p c cs hc => reMatch_email_space p (c :: cs)
      (fun d hd => by simpa [List.head?_cons, ← Option.some_inj.mp hd] using hc)) s hs]
    rw [pySub_id_of_space _ _ (fun p c cs hc => reMatch_secret_space p (c :: cs)
      (fun d hd => by simpa [List.head?_cons, ← Option.some_inj.mp hd] using hc)) s hs]
    rw [pySub_id_of_space _ _ (fun p c cs hc => reMatch_mac_space p (c :: cs)
      (fun d hd => by simpa [List.head?_cons, ← Option.some_inj.mp hd] using hc)) s hs]

/-! ## Claims about the sanitizer -/

/-- Claim C4 counterexample: a whitespace-only input is returned
unchanged, not as the empty string (`if not text` only catches the empty
string, and no pattern matches whitespace). -/
theorem C4_counterexample :
    clean_text " ".data = " ".data ∧ " ".data ≠ ([] : List Char) := by
  refine ⟨by decide, by decide⟩

/-- Claim C4 amended: `clean_text` maps the empty string to the empty
string and returns every whitespace-only input unchanged (and never
fails); whitespace-only input is not collapsed to the empty string. -/
theorem C4_whitespace_passthrough (s : List Char) (hs : s.all isPySpace) :
    clean_text s = s :=
  clean_text_space_helper s hs

/-- Claim C4 amended witness: the empty string and a whitespace-only
string. -/
theorem C4_witness :
    (List.all [] isPySpace = true ∧ clean_text [] = []) ∧
    (" \t ".data.all isPySpace = true ∧ clean_text " \t ".data = " \t ".data) :=
  ⟨⟨by decide, C4_whitespace_passthrough [] (by decide)⟩,
   ⟨by decide, C4_whitespace_passthrough " \t ".data (by decide)⟩⟩

/-- Claim C1 counterexample: the input contains the constructed IPv4
address `1.2.3.4` (which the IPV4 pattern matches in full); the first
occurrence is matched and replaced, yet the output still contains the
very same sensitive substring verbatim, embedded between word characters
where the pattern's `\b` anchors do not fire. -/
theorem C1_counterexample :
    reFullMatch ipv4Re "1.2.3.4".data = true ∧
    containsSeg "1.2.3.4".data "1.2.3.4 x1.2.3.4y".data = true ∧
    clean_text "1.2.3.4 x1.2.3.4y".data = "[REDACTED_IP] x1.2.3.4y".data ∧
    containsSeg "1.2.3.4".data (clean_text "1.2.3.4 x1.2.3.4y".data) = true := by
  refine ⟨by decide, by decide, by decide, by decide⟩

/-- Claim C1 amended: occurrences that the registered patterns match in
context are replaced by their placeholders; an occurrence at which the
pattern does not match (for example flanked by word characters, defeating
the `\b` anchors) can survive verbatim.  Verified on the specification's
concrete scenario and on the unit-test log line of the source file, whose
three asserted secrets do not survive. -/
theorem C1_no_leak_scenarios :
    clean_text ("Login failed for admin@corp.local from 10.0.0.5 " ++
        "using api_key=AAAAAAAAAAAAAAAAAAAA").data
      = ("Login failed for [REDACTED_EMAIL] from [REDACTED_IP] " ++
        "using [REDACTED_SECRET]").data ∧
    clean_text ("Error at 2023-10-12 08:00:00. Host 192.168.0.55 failed to connect. " ++
        "User admin@company.com attempted login with " ++
        "api_key=sk-abC12345678901234567890abcdef. MAC: 00:1B:44:11:3A:B7.").data
      = ("Error at 2023-10-12 08:00:00. Host [REDACTED_IP] failed to connect. " ++
        "User [REDACTED_EMAIL] attempted login with " ++
        "[REDACTED_SECRET]. MAC: [REDACTED_MAC].").data ∧
    containsSeg "192.168.0.55".data
      (clean_text ("Error at 2023-10-12 08:00:00. Host 192.168.0.55 failed to connect. " ++
        "User admin@company.com attempted login with " ++
        "api_key=sk-abC12345678901234567890abcdef. MAC: 00:1B:44:11:3A:B7.").data) = false ∧
    containsSeg "admin@company.com".data
      (clean_text ("Error at 2023-10-12 08:00:00. Host 192.168.0.55 failed to connect. " ++
        "User admin@company.com attempted login with " ++
        "api_key=sk-abC12345678901234567890abcdef. MAC: 00:1B:44:11:3A:B7.").data) = false ∧
    containsSeg "sk-abC".data
      (clean_text ("Error at 2023-10-12 08:00:00. Host 192.168.0.55 failed to connect. " ++
        "User admin@company.com attempted login with " ++
        "api_key=sk-abC12345678901234567890abcdef. MAC: 00:1B:44:11:3A:B7.").data) = false := by
  refine ⟨by decide, by decide, by decide, by decide, by decide⟩

/-- Claim C2 counterexample: `clean_text` is not idempotent.  The MAC
replacement ends in `]`, a non-word character, which creates the word
boundary the IPv4 pattern needed: `1.2.3.4` is untouched on the first
pass (preceded by the word character `F`) but replaced on the second. -/
theorem C2_counterexample :
    clean_text "AA:BB:CC:DD:EE:FF1.2.3.4".data = "[REDACTED_MAC]1.2.3.4".data ∧
    clean_text (clean_text "AA:BB:CC:DD:EE:FF1.2.3.4".data)
      = "[REDACTED_MAC][REDACTED_IP]".data ∧
    clean_text (clean_text "AA:BB:CC:DD:EE:FF1.2.3.4".data)
      ≠ clean_text "AA:BB:CC:DD:EE:FF1.2.3.4".data := by
  refine ⟨by decide, by decide, by decide⟩

/-- Claim C2 amended: the placeholder literals themselves never match any
registered pattern — each of the four placeholders is a fixed point of
`clean_text` — but full idempotence fails, because a replacement can
change the word-boundary context of adjacent text. -/
theorem C2_placeholders_stable :
    clean_text "[REDACTED_IP]".data = "[REDACTED_IP]".data ∧
    clean_text "[REDACTED_EMAIL]".data = "[REDACTED_EMAIL]".data ∧
    clean_text "[REDACTED_SECRET]".data = "[REDACTED_SECRET]".data ∧
    clean_text "[REDACTED_MAC]".data = "[REDACTED_MAC]".data := by
  refine ⟨by decide, by decide, by decide, by decide⟩

/-! ## Membership characterizations of the regex engine

These describe which states a sub-pattern can reach, independent of the
backtracking priority order, and drive the exact characterization of the
SECRET_KEY matcher (claim C8). -/

theorem consume_zero (st : MState) : consume st 0 = st := by
  cases st
  rfl

theorem consume_rest (st : MState) (k : Nat) :
    (consume st k).rest = st.rest.drop k := rfl

/-- Advancing over an explicit prefix. -/
theorem consume_append (st : MState) (w r : List Char) (h : st.rest = w ++ r) :
    consume st w.length =
      ⟨match w.getLast? with | none => st.prev | some d => some d, r⟩ := by
  rw [consume, h, List.take_left, List.drop_left]

theorem mem_reMatch_seq {r1 r2 : Regex} {st st2 : MState} :
    st2 ∈ reMatch (.seq r1 r2) st ↔
      ∃ st1, st1 ∈ reMatch r1 st ∧ st2 ∈ reMatch r2 st1 := by
  simp [reMatch]

theorem mem_reMatch_alt {r1 r2 : Regex} {st st' : MState} :
    st' ∈ reMatch (.alt r1 r2) st ↔
      st' ∈ reMatch r1 st ∨ st' ∈ reMatch r2 st := by
  simp [reMatch]

theorem mem_reMatch_cls {p : Char → Bool} {st st' : MState} :
    st' ∈ reMatch (.cls p) st ↔
      ∃ c cs, st.rest = c :: cs ∧ p c = true ∧ st' = ⟨some c, cs⟩ := by
  obtain ⟨prev, rest⟩ := st
  match rest with
  | [] => simp [reMatch]
  | c :: cs =>
    by_cases hp : p c
    · simp only [reMatch, if_pos hp, List.mem_singleton]
      constructor
      · intro h
        exact ⟨c, cs, rfl, hp, h⟩
      · rintro ⟨d, ds, hcons, -, h⟩
        rw [List.cons.injEq] at hcons
        rw [h, ← hcons.1, ← hcons.2]
    · simp only [reMatch, if_neg hp, List.not_mem_nil, false_iff]
      rintro ⟨d, ds, hcons, hpd, -⟩
      rw [List.cons.injEq] at hcons
      rw [← hcons.1] at hpd
      exact hp hpd

theorem mem_reMatch_wordB {st st' : MState} :
    st' ∈ reMatch .wordB st ↔ atBoundary st = true ∧ st' = st := by
  by_cases hb : atBoundary st <;> simp [reMatch, hb]

theorem le_runLen_iff (p : Char → Bool) :
    ∀ (l : List Char) (k : Nat),
      k ≤ runLen p l ↔ k ≤ l.length ∧ (l.take k).all p = true := by
  intro l
  induction l with
  | nil =>
    intro k
    simp [runLen]
  | cons c cs ih =>
    intro k
    match k with
    | 0 => simp
    | k + 1 =>
      by_cases hp : p c
      · rw [runLen, if_pos hp]
        simp only [Nat.add_le_add_iff_right, List.length_cons, List.take_succ_cons,
          List.all_cons, hp, Bool.true_and]
        exact ih k
      · rw [runLen, if_neg hp]
        simp only [Nat.le_zero, List.length_cons, List.take_succ_cons, List.all_cons]
        constructor
        · intro h; omega
        · rintro ⟨-, h⟩
          rw [Bool.and_eq_true] at h
          exact absurd h.1 hp

theorem le_repMax_iff (p : Char → Bool) (hi : Option Nat) (rest : List Char)
    (k : Nat) :
    k ≤ repMax p hi rest ↔
      (∀ h, hi = some h → k ≤ h) ∧ k ≤ rest.length ∧
        (rest.take k).all p = true := by
  match hi with
  | none =>
    rw [show repMax p none rest = runLen p rest from rfl, le_runLen_iff]
    constructor
    · rintro ⟨h1, h2⟩
      exact ⟨(by rintro h hcontra; cases hcontra), h1, h2⟩
    · rintro ⟨-, h1, h2⟩
      exact ⟨h1, h2⟩
  | some h =>
    rw [show repMax p (some h) rest = min (runLen p rest) h from rfl,
      Nat.le_min, le_runLen_iff]
    constructor
    · rintro ⟨⟨h1, h2⟩, h3⟩
      exact ⟨fun x hx => by cases hx; exact h3, h1, h2⟩
    · rintro ⟨h3, h1, h2⟩
      exact ⟨⟨h1, h2⟩, h3 h rfl⟩

theorem mem_reMatch_rep {p : Char → Bool} {lo : Nat} {hi : Option Nat}
    {st st' : MState} :
    st' ∈ reMatch (.rep p lo hi) st ↔
      ∃ k, lo ≤ k ∧ (∀ h, hi = some h → k ≤ h) ∧ k ≤ st.rest.length ∧
        (st.rest.take k).all p = true ∧ st' = consume st k := by
  rw [show reMatch (.rep p lo hi) st = repStates p lo hi st from rfl, repStates]
  by_cases hlt : repMax p hi st.rest < lo
  · rw [if_pos hlt]
    simp only [List.not_mem_nil, false_iff]
    rintro ⟨k, hk1, hk2, hk3, hk4, -⟩
    have hkM := (le_repMax_iff p hi st.rest k).mpr ⟨hk2, hk3, hk4⟩
    omega
  · rw [if_neg hlt]
    simp only [List.mem_map, List.mem_range]
    constructor
    · rintro ⟨j, hj, rfl⟩
      have hle := (le_repMax_iff p hi st.rest (repMax p hi st.rest - j)).mp
        (by omega)
      exact ⟨repMax p hi st.rest - j, by omega, hle.1, hle.2.1, hle.2.2, rfl⟩
    · rintro ⟨k, hk1, hk2, hk3, hk4, rfl⟩
      have hkM := (le_repMax_iff p hi st.rest k).mpr ⟨hk2, hk3, hk4⟩
      exact ⟨repMax p hi st.rest - k, by omega, by congr 1; omega⟩

/-! ## Facts about ASCII lowercasing -/

theorem char_toNat_ofNat_small {n : Nat} (h : n < 55296) :
    (Char.ofNat n).toNat = n := by
  rw [Char.ofNat, dif_pos (by constructor; omega)]
  show (Char.ofNatAux n _).toNat = n
  rw [Char.ofNatAux]
  rfl

theorem upper_toNat_bounds {c : Char} (h1 : 'A' ≤ c) (h2 : c ≤ 'Z') :
    65 ≤ c.toNat ∧ c.toNat ≤ 90 := by
  have g1 : ('A' : Char).toNat ≤ c.toNat := h1
  have g2 : c.toNat ≤ ('Z' : Char).toNat := h2
  have e1 : ('A' : Char).toNat = 65 := rfl
  have e2 : ('Z' : Char).toNat = 90 := rfl
  omega

/-- Lowercasing a character cannot produce a target outside `a`–`z`
unless the character already equals the target. -/
theorem lowerAscii_fix {c t : Char} (ht : t.toNat < 97 ∨ 122 < t.toNat)
    (h : lowerAscii c = t) : c = t := by
  rw [lowerAscii] at h
  split at h
  · exfalso
    rename_i hup
    obtain ⟨b1, b2⟩ := upper_toNat_bounds hup.1 hup.2
    have hco := congrArg Char.toNat h
    rw [char_toNat_ofNat_small (by omega)] at hco
    omega
  · exact h

/-- A character whose lowercase form is a letter is a word character. -/
theorem lowerAscii_word {c t : Char} (ht : 97 ≤ t.toNat ∧ t.toNat ≤ 122)
    (h : lowerAscii c = t) : isWordC c = true := by
  rw [lowerAscii] at h
  split at h
  · rename_i hup
    simp [isWordC, hup.1, hup.2]
  · rw [h]
    have g1 : ('a' : Char) ≤ t := by
      show ('a' : Char).toNat ≤ t.toNat
      have e : ('a' : Char).toNat = 97 := rfl
      omega
    have g2 : t ≤ ('z' : Char) := by
      show t.toNat ≤ ('z' : Char).toNat
      have e : ('z' : Char).toNat = 122 := rfl
      omega
    simp [isWordC, g1, g2]

/-! ## Append-form characterizations of the SECRET_KEY components -/

/-- Greedy repetition in append form: reachable states are exactly those
that consume a prefix of class characters within the bounds. -/
theorem mem_rep_iff_append {p : Char → Bool} {lo : Nat} {hi : Option Nat}
    {st st' : MState} :
    st' ∈ reMatch (.rep p lo hi) st ↔
      ∃ raw r, st.rest = raw ++ r ∧ lo ≤ raw.length ∧
        (∀ h, hi = some h → raw.length ≤ h) ∧ raw.all p = true ∧
        st' = ⟨match raw.getLast? with | none => st.prev | some d => some d, r⟩ := by
  rw [mem_reMatch_rep]
  constructor
  · rintro ⟨k, h1, h2, h3, h4, rfl⟩
    refine ⟨st.rest.take k, st.rest.drop k, (List.take_append_drop k st.rest).symm,
      ?_, ?_, h4, rfl⟩
    · rw [List.length_take]
      omega
    · intro h hh
      rw [List.length_take]
      have := h2 h hh
      omega
  · rintro ⟨raw, r, hrest, h1, h2, h3, rfl⟩
    refine ⟨raw.length, h1, h2, ?_, ?_, ?_⟩
    · rw [hrest, List.length_append]
      omega
    · rw [hrest, List.take_left]
      exact h3
    · rw [consume_append st raw r hrest]

/-- Elimination for a case-insensitive literal: a match consumes exactly
a prefix whose lowercase image is the literal. -/
theorem ciWord_elim :
    ∀ (w : List Char) (st st' : MState), st' ∈ reMatch (ciWord w) st →
      ∃ raw, st.rest = raw ++ st'.rest ∧ raw.map lowerAscii = w := by
  intro w
  induction w with
  | nil =>
    intro st st' hm
    rw [show ciWord [] = epsRe from rfl] at hm
    rw [show epsRe = Regex.rep (fun _ => false) 0 (some 0) from rfl,
      mem_reMatch_rep] at hm
    obtain ⟨k, -, hk2, -, -, rfl⟩ := hm
    have hk0 : k = 0 := by
      have := hk2 0 rfl
      omega
    subst hk0
    exact ⟨[], by simp [consume_zero], rfl⟩
  | cons c w' ih =>
    intro st st' hm
    rw [show ciWord (c :: w') =
      Regex.seq (.cls fun x => lowerAscii x = c) (ciWord w') from rfl,
      mem_reMatch_seq] at hm
    obtain ⟨st1, h1, h2⟩ := hm
    rw [mem_reMatch_cls] at h1
    obtain ⟨d, ds, hrest, hpd, rfl⟩ := h1
    obtain ⟨raw', hrest', hmap'⟩ := ih ⟨some d, ds⟩ st' h2
    refine ⟨d :: raw', ?_, ?_⟩
    · rw [hrest]
      simpa using hrest'
    · simp only [List.map_cons, hmap']
      rw [of_decide_eq_true hpd]

/-- Introduction for a case-insensitive literal. -/
theorem ciWord_intro :
    ∀ (w raw r : List Char) (st : MState), st.rest = raw ++ r →
      raw.map lowerAscii = w →
      ∃ st', st' ∈ reMatch (ciWord w) st ∧ st'.rest = r := by
  intro w
  induction w with
  | nil =>
    intro raw r st hrest hmap
    have hraw : raw = [] := by
      cases raw with
      | nil => rfl
      | cons d ds => simp at hmap
    subst hraw
    refine ⟨st, ?_, by simpa using hrest⟩
    rw [show ciWord [] = epsRe from rfl,
      show epsRe = Regex.rep (fun _ => false) 0 (some 0) from rfl,
      mem_reMatch_rep]
    exact ⟨0, Nat.le_refl 0, (by rintro h hh; cases hh; exact Nat.le_refl 0),
      Nat.zero_le _, by simp, (consume_zero st).symm⟩
  | cons c w' ih =>
    intro raw r st hrest hmap
    cases raw with
    | nil => simp at hmap
    | cons d raw' =>
      rw [List.map_cons, List.cons.injEq] at hmap
      obtain ⟨st', hst', hst'rest⟩ := ih raw' r ⟨some d, raw' ++ r⟩ rfl hmap.2
      refine ⟨st', ?_, hst'rest⟩
      rw [show ciWord (c :: w') =
        Regex.seq (.cls fun x => lowerAscii x = c) (ciWord w') from rfl,
        mem_reMatch_seq]
      refine ⟨⟨some d, raw' ++ r⟩, ?_, hst'⟩
      rw [mem_reMatch_cls]
      exact ⟨d, raw' ++ r, by simpa using hrest, decide_eq_true hmap.1, rfl⟩

/-- The nine keyword spellings (lowercase) accepted by the SECRET_KEY
keyword alternation `(api[_-]?key|access[_-]?token|secret|password|auth)`:
the optional `[_-]?` also admits the fused spellings. -/
def kwAll : List (List Char) :=
  [['a', 'p', 'i', 'k', 'e', 'y'],
   ['a', 'p', 'i', '_', 'k', 'e', 'y'],
   ['a', 'p', 'i', '-', 'k', 'e', 'y'],
   ['a', 'c', 'c', 'e', 's', 's', 't', 'o', 'k', 'e', 'n'],
   ['a', 'c', 'c', 'e', 's', 's', '_', 't', 'o', 'k', 'e', 'n'],
   ['a', 'c', 'c', 'e', 's', 's', '-', 't', 'o', 'k', 'e', 'n'],
   ['s', 'e', 'c', 'r', 'e', 't'],
   ['p', 'a', 's', 's', 'w', 'o', 'r', 'd'],
   ['a', 'u', 't', 'h']]

theorem map_split2 {raw A B : List Char} {n : Nat} (hn : A.length = n)
    (h : raw.map lowerAscii = A ++ B) :
    raw = raw.take n ++ raw.drop n ∧
    (raw.take n).map lowerAscii = A ∧
    (raw.drop n).map lowerAscii = B := by
  subst hn
  refine ⟨(List.take_append_drop _ _).symm, ?_, ?_⟩
  · rw [List.map_take, h, List.take_left]
  · rw [List.map_drop, h, List.drop_left]

theorem map_lower_fix_single {t : Char} (ht : t.toNat < 97 ∨ 122 < t.toNat) :
    ∀ {l : List Char}, l.map lowerAscii = [t] → l = [t] := by
  intro l h
  match l with
  | [m] =>
    simp only [List.map_cons, List.map_nil, List.cons.injEq, and_true] at h
    rw [lowerAscii_fix ht h]

/-- Elimination for a keyword pair branch `a[_-]?b`. -/
theorem pair_elim (a b : List Char) {st st' : MState}
    (hm : st' ∈ reMatch (.seq (ciWord a) (.seq optSepRe (ciWord b))) st) :
    ∃ raw, st.rest = raw ++ st'.rest ∧
      (raw.map lowerAscii = a ++ b ∨ raw.map lowerAscii = a ++ '_' :: b ∨
       raw.map lowerAscii = a ++ '-' :: b) := by
  rw [mem_reMatch_seq] at hm
  obtain ⟨st1, ha, hm⟩ := hm
  rw [mem_reMatch_seq] at hm
  obtain ⟨st2, hmid, hb⟩ := hm
  obtain ⟨rawa, hra, hmapa⟩ := ciWord_elim a st st1 ha
  rw [show optSepRe = Regex.rep (fun c => c = '_' || c = '-') 0 (some 1) from rfl,
    mem_rep_iff_append] at hmid
  obtain ⟨rawm, rm, hrm, -, hlenm, hallm, rfl⟩ := hmid
  obtain ⟨rawb, hrb, hmapb⟩ := ciWord_elim b _ st' hb
  simp only at hrb
  refine ⟨rawa ++ rawm ++ rawb, ?_, ?_⟩
  · rw [hra, hrm, hrb]
    simp [List.append_assoc]
  · simp only [List.map_append]
    rw [hmapa, hmapb]
    match rawm, hallm, hlenm with
    | [], _, _ => exact Or.inl (by simp)
    | [m], hall, _ =>
      simp only [List.all_cons, List.all_nil, Bool.and_true, Bool.or_eq_true,
        decide_eq_true_eq] at hall
      rcases hall with rfl | rfl
      · exact Or.inr (Or.inl (by simp [lowerAscii]))
      · exact Or.inr (Or.inr (by simp [lowerAscii]))
    | m1 :: m2 :: ms, _, hlen =>
      exfalso
      have := hlen 1 rfl
      simp at this

/-- Introduction for a keyword pair branch `a[_-]?b`. -/
theorem pair_intro (a b : List Char) {st : MState}
    (rawa rawm rawb r : List Char)
    (hrest : st.rest = rawa ++ (rawm ++ (rawb ++ r)))
    (hmapa : rawa.map lowerAscii = a)
    (hmid : rawm = [] ∨ rawm = ['_'] ∨ rawm = ['-'])
    (hmapb : rawb.map lowerAscii = b) :
    ∃ st', st' ∈ reMatch (.seq (ciWord a) (.seq optSepRe (ciWord b))) st ∧
      st'.rest = r := by
  obtain ⟨st1, h1, hr1⟩ := ciWord_intro a rawa (rawm ++ (rawb ++ r)) st hrest hmapa
  have h2 : (⟨match rawm.getLast? with | none => st1.prev | some d => some d,
      rawb ++ r⟩ : MState) ∈ reMatch optSepRe st1 := by
    rw [show optSepRe = Regex.rep (fun c => c = '_' || c = '-') 0 (some 1) from rfl,
      mem_rep_iff_append]
    refine ⟨rawm, rawb ++ r, by rw [hr1], Nat.zero_le _, ?_, ?_, rfl⟩
    · rintro h hh
      cases hh
      rcases hmid with rfl | rfl | rfl <;> simp
    · rcases hmid with rfl | rfl | rfl <;> decide
  obtain ⟨st', h3, hr3⟩ := ciWord_intro b rawb r
    ⟨match rawm.getLast? with | none => st1.prev | some d => some d, rawb ++ r⟩
    rfl hmapb
  refine ⟨st', ?_, hr3⟩
  rw [mem_reMatch_seq]
  refine ⟨st1, h1, ?_⟩
  rw [mem_reMatch_seq]
  exact ⟨_, h2, h3⟩

/-- Elimination for the whole keyword alternation. -/
theorem kw_elim {st st' : MState} (hm : st' ∈ reMatch kwRe st) :
    ∃ raw, st.rest = raw ++ st'.rest ∧ raw.map lowerAscii ∈ kwAll := by
  rw [kwRe] at hm
  simp only [mem_reMatch_alt] at hm
  rcases hm with h | h | h | h | h
  · obtain ⟨raw, hr, hcase⟩ := pair_elim _ _ h
    refine ⟨raw, hr, ?_⟩
    rcases hcase with h | h | h <;> rw [h] <;> decide
  · obtain ⟨raw, hr, hcase⟩ := pair_elim _ _ h
    refine ⟨raw, hr, ?_⟩
    rcases hcase with h | h | h <;> rw [h] <;> decide
  · obtain ⟨raw, hr, hmap⟩ := ciWord_elim _ st st' h
    exact ⟨raw, hr, by rw [hmap]; decide⟩
  · obtain ⟨raw, hr, hmap⟩ := ciWord_elim _ st st' h
    exact ⟨raw, hr, by rw [hmap]; decide⟩
  · obtain ⟨raw, hr, hmap⟩ := ciWord_elim _ st st' h
    exact ⟨raw, hr, by rw [hmap]; decide⟩

/-- Introduction for the whole keyword alternation. -/
theorem kw_intro {st : MState} (raw r : List Char) (hrest : st.rest = raw ++ r)
    (hkw : raw.map lowerAscii ∈ kwAll) :
    ∃ st', st' ∈ reMatch kwRe st ∧ st'.rest = r := by
  simp only [kwAll, List.mem_cons, List.not_mem_nil, or_false] at hkw
  rcases hkw with h | h | h | h | h | h | h | h | h
  · -- apikey
    obtain ⟨heq, hA, hB⟩ := map_split2
      (show (['a', 'p', 'i'] : List Char).length = 3 from rfl)
      (show raw.map lowerAscii = ['a', 'p', 'i'] ++ ['k', 'e', 'y'] from h)
    obtain ⟨st', hmem, hr'⟩ := pair_intro ['a', 'p', 'i'] ['k', 'e', 'y']
      (raw.take 3) [] (raw.drop 3) r
      (by rw [hrest]; nth_rewrite 1 [heq]; simp only [List.nil_append, List.append_assoc]) hA (Or.inl rfl) hB
    have hwrap : st' ∈ reMatch kwRe st := by
      rw [kwRe]
      simp only [mem_reMatch_alt]
      exact Or.inl hmem
    exact ⟨st', hwrap, hr'⟩
  · -- api_key
    obtain ⟨heq, hA, hB⟩ := map_split2
      (show (['a', 'p', 'i'] : List Char).length = 3 from rfl)
      (show raw.map lowerAscii = ['a', 'p', 'i'] ++ ['_', 'k', 'e', 'y'] from h)
    obtain ⟨heq2, hM, hB'⟩ := map_split2
      (show (['_'] : List Char).length = 1 from rfl)
      (show (raw.drop 3).map lowerAscii = ['_'] ++ ['k', 'e', 'y'] from hB)
    obtain ⟨st', hmem, hr'⟩ := pair_intro ['a', 'p', 'i'] ['k', 'e', 'y']
      (raw.take 3) ((raw.drop 3).take 1) ((raw.drop 3).drop 1) r
      (by rw [hrest]; nth_rewrite 1 [heq]; nth_rewrite 1 [heq2]; simp only [List.nil_append, List.append_assoc]) hA
      (Or.inr (Or.inl (map_lower_fix_single (Or.inl (by decide)) hM))) hB'
    have hwrap : st' ∈ reMatch kwRe st := by
      rw [kwRe]
      simp only [mem_reMatch_alt]
      exact Or.inl hmem
    exact ⟨st', hwrap, hr'⟩
  · -- api-key
    obtain ⟨heq, hA, hB⟩ := map_split2
      (show (['a', 'p', 'i'] : List Char).length = 3 from rfl)
      (show raw.map lowerAscii = ['a', 'p', 'i'] ++ ['-', 'k', 'e', 'y'] from h)
    obtain ⟨heq2, hM, hB'⟩ := map_split2
      (show (['-'] : List Char).length = 1 from rfl)
      (show (raw.drop 3).map lowerAscii = ['-'] ++ ['k', 'e', 'y'] from hB)
    obtain ⟨st', hmem, hr'⟩ := pair_intro ['a', 'p', 'i'] ['k', 'e', 'y']
      (raw.take 3) ((raw.drop 3).take 1) ((raw.drop 3).drop 1) r
      (by rw [hrest]; nth_rewrite 1 [heq]; nth_rewrite 1 [heq2]; simp only [List.nil_append, List.append_assoc]) hA
      (Or.inr (Or.inr (map_lower_fix_single (Or.inl (by decide)) hM))) hB'
    have hwrap : st' ∈ reMatch kwRe st := by
      rw [kwRe]
      simp only [mem_reMatch_alt]
      exact Or.inl hmem
    exact ⟨st', hwrap, hr'⟩
  · -- accesstoken
    obtain ⟨heq, hA, hB⟩ := map_split2
      (show (['a', 'c', 'c', 'e', 's', 's'] : List Char).length = 6 from rfl)
      (show raw.map lowerAscii
        = ['a', 'c', 'c', 'e', 's', 's'] ++ ['t', 'o', 'k', 'e', 'n'] from h)
    obtain ⟨st', hmem, hr'⟩ := pair_intro ['a', 'c', 'c', 'e', 's', 's']
      ['t', 'o', 'k', 'e', 'n'] (raw.take 6) [] (raw.drop 6) r
      (by rw [hrest]; nth_rewrite 1 [heq]; simp only [List.nil_append, List.append_assoc]) hA (Or.inl rfl) hB
    have hwrap : st' ∈ reMatch kwRe st := by
      rw [kwRe]
      simp only [mem_reMatch_alt]
      exact Or.inr (Or.inl hmem)
    exact ⟨st', hwrap, hr'⟩
  · -- access_token
    obtain ⟨heq, hA, hB⟩ := map_split2
      (show (['a', 'c', 'c', 'e', 's', 's'] : List Char).length = 6 from rfl)
      (show raw.map lowerAscii
        = ['a', 'c', 'c', 'e', 's', 's'] ++ ['_', 't', 'o', 'k', 'e', 'n'] from h)
    obtain ⟨heq2, hM, hB'⟩ := map_split2
      (show (['_'] : List Char).length = 1 from rfl)
      (show (raw.drop 6).map lowerAscii = ['_'] ++ ['t', 'o', 'k', 'e', 'n'] from hB)
    obtain ⟨st', hmem, hr'⟩ := pair_intro ['a', 'c', 'c', 'e', 's', 's']
      ['t', 'o', 'k', 'e', 'n'] (raw.take 6) ((raw.drop 6).take 1)
      ((raw.drop 6).drop 1) r
      (by rw [hrest]; nth_rewrite 1 [heq]; nth_rewrite 1 [heq2]; simp only [List.nil_append, List.append_assoc]) hA
      (Or.inr (Or.inl (map_lower_fix_single (Or.inl (by decide)) hM))) hB'
    have hwrap : st' ∈ reMatch kwRe st := by
      rw [kwRe]
      simp only [mem_reMatch_alt]
      exact Or.inr (Or.inl hmem)
    exact ⟨st', hwrap, hr'⟩
  · -- access-token
    obtain ⟨heq, hA, hB⟩ := map_split2
      (show (['a', 'c', 'c', 'e', 's', 's'] : List Char).length = 6 from rfl)
      (show raw.map lowerAscii
        = ['a', 'c', 'c', 'e', 's', 's'] ++ ['-', 't', 'o', 'k', 'e', 'n'] from h)
    obtain ⟨heq2, hM, hB'⟩ := map_split2
      (show (['-'] : List Char).length = 1 from rfl)
      (show (raw.drop 6).map lowerAscii = ['-'] ++ ['t', 'o', 'k', 'e', 'n'] from hB)
    obtain ⟨st', hmem, hr'⟩ := pair_intro ['a', 'c', 'c', 'e', 's', 's']
      ['t', 'o', 'k', 'e', 'n'] (raw.take 6) ((raw.drop 6).take 1)
      ((raw.drop 6).drop 1) r
      (by rw [hrest]; nth_rewrite 1 [heq]; nth_rewrite 1 [heq2]; simp only [List.nil_append, List.append_assoc]) hA
      (Or.inr (Or.inr (map_lower_fix_single (Or.inl (by decide)) hM))) hB'
    have hwrap : st' ∈ reMatch kwRe st := by
      rw [kwRe]
      simp only [mem_reMatch_alt]
      exact Or.inr (Or.inl hmem)
    exact ⟨st', hwrap, hr'⟩
  · -- secret
    obtain ⟨st', hmem, hr'⟩ :=
      ciWord_intro ['s', 'e', 'c', 'r', 'e', 't'] raw r st hrest h
    have hwrap : st' ∈ reMatch kwRe st := by
      rw [kwRe]
      simp only [mem_reMatch_alt]
      exact Or.inr (Or.inr (Or.inl hmem))
    exact ⟨st', hwrap, hr'⟩
  · -- password
    obtain ⟨st', hmem, hr'⟩ :=
      ciWord_intro ['p', 'a', 's', 's', 'w', 'o', 'r', 'd'] raw r st hrest h
    have hwrap : st' ∈ reMatch kwRe st := by
      rw [kwRe]
      simp only [mem_reMatch_alt]
      exact Or.inr (Or.inr (Or.inr (Or.inl hmem)))
    exact ⟨st', hwrap, hr'⟩
  · -- auth
    obtain ⟨st', hmem, hr'⟩ := ciWord_intro ['a', 'u', 't', 'h'] raw r st hrest h
    have hwrap : st' ∈ reMatch kwRe st := by
      rw [kwRe]
      simp only [mem_reMatch_alt]
      exact Or.inr (Or.inr (Or.inr (Or.inr hmem)))
    exact ⟨st', hwrap, hr'⟩

/-- Finite facts about the keyword table: every entry is nonempty and
starts with a lowercase letter. -/
theorem kwAll_head :
    ∀ L ∈ kwAll, L ≠ [] ∧
      (L.head?.all fun t => 97 ≤ t.toNat ∧ t.toNat ≤ 122) = true := by
  decide

/-- Shape of the strings the SECRET_KEY pattern matches in full, as the
code implements it: a keyword spelling from `kwAll` (case-insensitive),
optional whitespace, `:` or `=`, optional whitespace, and a token of at
least 16 characters from `[A-Za-z0-9_-]` whose final character is a word
character (the trailing `\b` of the pattern rejects a final `-`). -/
def SecretMatchShape (s : List Char) : Prop :=
  ∃ kw w1 c w2 tok,
    s = kw ++ (w1 ++ (c :: (w2 ++ tok))) ∧
    kw.map lowerAscii ∈ kwAll ∧
    w1.all isPySpace = true ∧ (c = ':' ∨ c = '=') ∧
    w2.all isPySpace = true ∧
    16 ≤ tok.length ∧ tok.all isTokC = true ∧
    (∃ lst, tok.getLast? = some lst ∧ isWordC lst = true)

/-- The SECRET_KEY matcher accepts a string in full exactly when the
string has `SecretMatchShape`. -/
theorem secretFull_iff (s : List Char) :
    reFullMatch secretRe s = true ↔ SecretMatchShape s := by
  rw [reFullMatch, List.any_eq_true]
  constructor
  · rintro ⟨stF, hmem, hempty⟩
    simp only [secretRe] at hmem
    rw [mem_reMatch_seq] at hmem
    obtain ⟨st1, hB, hmem⟩ := hmem
    rw [mem_reMatch_wordB] at hB
    obtain ⟨hbound, rfl⟩ := hB
    rw [mem_reMatch_seq] at hmem
    obtain ⟨st2, hkw, hmem⟩ := hmem
    obtain ⟨kwraw, hkrest, hkmap⟩ := kw_elim hkw
    rw [mem_reMatch_seq] at hmem
    obtain ⟨st3, hws1, hmem⟩ := hmem
    rw [mem_rep_iff_append] at hws1
    obtain ⟨w1, r1, hw1rest, -, -, hw1all, rfl⟩ := hws1
    rw [mem_reMatch_seq] at hmem
    obtain ⟨st4, hsep, hmem⟩ := hmem
    rw [mem_reMatch_cls] at hsep
    obtain ⟨c, cs, hcrest, hcval, rfl⟩ := hsep
    simp only at hcrest
    rw [mem_reMatch_seq] at hmem
    obtain ⟨st5, hws2, hmem⟩ := hmem
    rw [mem_rep_iff_append] at hws2
    obtain ⟨w2, r2, hw2rest, -, -, hw2all, rfl⟩ := hws2
    simp only at hw2rest
    rw [mem_reMatch_seq] at hmem
    obtain ⟨st6, htok, hfinB⟩ := hmem
    rw [mem_rep_iff_append] at htok
    obtain ⟨tok, r3, htokrest, hlen16, -, htokall, rfl⟩ := htok
    simp only at htokrest
    rw [mem_reMatch_wordB] at hfinB
    obtain ⟨hbound2, rfl⟩ := hfinB
    simp only [List.isEmpty_iff] at hempty
    subst hempty
    rw [List.append_nil] at htokrest
    have htokne : tok ≠ [] := by
      intro hcontra
      rw [hcontra] at hlen16
      simp at hlen16
    obtain ⟨lst, hlst⟩ : ∃ lst, tok.getLast? = some lst :=
      ⟨tok.getLast htokne, List.getLast?_eq_getLast_of_ne_nil htokne⟩
    have hlstword : isWordC lst = true := by
      rw [atBoundary] at hbound2
      simp only [hlst, List.head?_nil] at hbound2
      simpa [isWordOpt] using hbound2
    refine ⟨kwraw, w1, c, w2, tok, ?_, hkmap, hw1all, ?_, hw2all, hlen16,
      htokall, lst, hlst, hlstword⟩
    · have hs : s = kwraw ++ st2.rest := hkrest
      rw [hs, hw1rest, hcrest, hw2rest, htokrest]
    · rcases (by simpa using hcval : c = ':' ∨ c = '=') with h | h
      · exact Or.inl h
      · exact Or.inr h
  · rintro ⟨kw, w1, c, w2, tok, heq, hkmap, hw1, hc, hw2, hlen, htok,
      lst, hlst, hword⟩
    have hkfacts := kwAll_head _ hkmap
    have hkwne : kw ≠ [] := by
      intro hcontra
      rw [hcontra] at hkmap
      exact absurd hkmap (by decide)
    obtain ⟨k0, kw', rfl⟩ : ∃ k0 kw', kw = k0 :: kw' := by
      match kw, hkwne with
      | k0 :: kw', _ => exact ⟨k0, kw', rfl⟩
    have hk0word : isWordC k0 = true := by
      obtain ⟨-, hh⟩ := hkfacts
      simp only [List.map_cons, List.head?_cons, Option.all_some,
        decide_eq_true_eq] at hh
      exact lowerAscii_word hh rfl
    have hbound0 : atBoundary ⟨none, s⟩ = true := by
      rw [atBoundary, heq]
      simp [isWordOpt, hk0word]
    obtain ⟨st2, hst2, hst2rest⟩ := @kw_intro ⟨none, s⟩ (k0 :: kw')
      (w1 ++ (c :: (w2 ++ tok))) heq hkmap
    have hcbool : (c = ':' || c = '=') = true := by
      rcases hc with rfl | rfl <;> simp
    have hst3 : (⟨match w1.getLast? with
        | none => st2.prev | some d => some d, c :: (w2 ++ tok)⟩ : MState)
        ∈ reMatch (.rep isPySpace 0 none) st2 := by
      rw [mem_rep_iff_append]
      exact ⟨w1, c :: (w2 ++ tok), hst2rest, Nat.zero_le _,
        (by rintro h hh; cases hh), hw1, rfl⟩
    have hst4 : (⟨some c, w2 ++ tok⟩ : MState) ∈
        reMatch (.cls fun x => x = ':' || x = '=')
          ⟨match w1.getLast? with
            | none => st2.prev | some d => some d, c :: (w2 ++ tok)⟩ := by
      rw [mem_reMatch_cls]
      exact ⟨c, w2 ++ tok, rfl, hcbool, rfl⟩
    have hst5 : (⟨match w2.getLast? with
        | none => some c | some d => some d, tok⟩ : MState)
        ∈ reMatch (.rep isPySpace 0 none) ⟨some c, w2 ++ tok⟩ := by
      rw [mem_rep_iff_append]
      exact ⟨w2, tok, rfl, Nat.zero_le _, (by rintro h hh; cases hh), hw2, rfl⟩
    have hst6 : (⟨match tok.getLast? with
        | none => (⟨match w2.getLast? with
            | none => some c | some d => some d, tok⟩ : MState).prev
        | some d => some d, []⟩ : MState)
        ∈ reMatch (.rep isTokC 16 none)
          ⟨match w2.getLast? with | none => some c | some d => some d, tok⟩ := by
      rw [mem_rep_iff_append]
      exact ⟨tok, [], by simp, hlen, (by rintro h hh; cases hh), htok, rfl⟩
    have hbound6 : atBoundary (⟨match tok.getLast? with
        | none => (⟨match w2.getLast? with
            | none => some c | some d => some d, tok⟩ : MState).prev
        | some d => some d, []⟩ : MState) = true := by
      rw [atBoundary]
      simp only [hlst, List.head?_nil]
      simpa [isWordOpt] using hword
    refine ⟨⟨match tok.getLast? with
        | none => (⟨match w2.getLast? with
            | none => some c | some d => some d, tok⟩ : MState).prev
        | some d => some d, []⟩, ?_, ?_⟩
    · simp only [secretRe]
      rw [mem_reMatch_seq]
      refine ⟨⟨none, s⟩, by rw [mem_reMatch_wordB]; exact ⟨hbound0, rfl⟩, ?_⟩
      rw [mem_reMatch_seq]
      refine ⟨st2, hst2, ?_⟩
      rw [mem_reMatch_seq]
      refine ⟨_, hst3, ?_⟩
      rw [mem_reMatch_seq]
      refine ⟨_, hst4, ?_⟩
      rw [mem_reMatch_seq]
      refine ⟨_, hst5, ?_⟩
      rw [mem_reMatch_seq]
      refine ⟨_, hst6, ?_⟩
      rw [mem_reMatch_wordB]
      exact ⟨hbound6, rfl⟩
    · rfl

/-- The seven keyword spellings named by the specification's SECRET_KEY
detection rule (which omits the fused spellings `apikey`/`accesstoken`). -/
def kwClaim : List (List Char) :=
  [['a', 'p', 'i', '_', 'k', 'e', 'y'],
   ['a', 'p', 'i', '-', 'k', 'e', 'y'],
   ['a', 'c', 'c', 'e', 's', 's', '_', 't', 'o', 'k', 'e', 'n'],
   ['a', 'c', 'c', 'e', 's', 's', '-', 't', 'o', 'k', 'e', 'n'],
   ['s', 'e', 'c', 'r', 'e', 't'],
   ['p', 'a', 's', 's', 'w', 'o', 'r', 'd'],
   ['a', 'u', 't', 'h']]

/-- Modelled from the spec: the SECRET_KEY detection rule as claim C8
states it — a case-insensitive keyword from
{api_key, api-key, access_token, access-token, secret, password, auth}
followed by an assignment separator `:` or `=` with optional surrounding
whitespace and a token of 16 or more characters from `[A-Za-z0-9_-]`
(with no restriction on the token's final character). -/
def SecretClaimShape (s : List Char) : Prop :=
  ∃ kw w1 c w2 tok,
    s = kw ++ (w1 ++ (c :: (w2 ++ tok))) ∧
    kw.map lowerAscii ∈ kwClaim ∧
    w1.all isPySpace = true ∧ (c = ':' ∨ c = '=') ∧
    w2.all isPySpace = true ∧
    16 ≤ tok.length ∧ tok.all isTokC = true

/-- Claim C8 counterexample: `apikey=AAAAAAAAAAAAAAAA` is matched in full
by the code's SECRET_KEY pattern (the optional `[_-]?` admits the fused
spelling `apikey`), but its keyword is not in the claim's keyword set, so
the claimed exactly-when characterization fails. -/
theorem C8_counterexample :
    reFullMatch secretRe "apikey=AAAAAAAAAAAAAAAA".data = true ∧
    ¬ SecretClaimShape "apikey=AAAAAAAAAAAAAAAA".data := by
  constructor
  · decide
  · rintro ⟨kw, w1, c, w2, tok, heq, hkw, -, -, -, -, -⟩
    simp only [kwClaim, List.mem_cons, List.not_mem_nil, or_false] at hkw
    rcases hkw with h | h | h | h | h | h | h <;>
    · have hl := congrArg List.length h
      simp only [List.length_map, List.length_cons, List.length_nil] at hl
      have hk := (List.take_left kw (w1 ++ (c :: (w2 ++ tok)))).symm
      rw [← heq] at hk
      rw [hl] at hk
      rw [hk] at h
      exact absurd h (by decide)

/-- Claim C8 amended: the SECRET_KEY matcher matches a string in full
exactly when it is a case-insensitive keyword from {api_key, api-key,
apikey, access_token, access-token, accesstoken, secret, password, auth}
followed by an assignment separator (`:` or `=`, optional surrounding
whitespace) and a token of 16 or more alphanumeric/`_`/`-` characters
whose final character is not `-` (the pattern's trailing `\b`). -/
theorem C8_secret_rule (s : List Char) :
    reFullMatch secretRe s = true ↔ SecretMatchShape s :=
  secretFull_iff s

/-- Claim C8 amended witness at a concrete accepted input. -/
theorem C8_witness :
    reFullMatch secretRe "auth = AAAAAAAAAAAAAAAA".data = true ∧
    SecretMatchShape "auth = AAAAAAAAAAAAAAAA".data :=
  ⟨by decide, (C8_secret_rule "auth = AAAAAAAAAAAAAAAA".data).mp (by decide)⟩

end AgentSmith
